import Mathlib

/-!
Shallow embedding of the `log` Go package (src/log.go) and proofs about it.

Conventions:
* Go strings are byte slices; `reshape` is documented in the source as
  assuming ASCII, so message text is modelled as `List Char` (one `Char`
  per byte) and the public `String` API is bridged via `String.data`.
* Machine integers (`int`, `uint8`) only ever hold tiny non-negative
  values here (level ordinals 0..4, option bits 0..7, lengths), far from
  any overflow, so they are modelled as `Nat`.
* Stateful pieces (the package-global `level`, `time.Now`, the OS calls
  made by `file.WriteMsg`) are modelled by explicit parameter passing:
  the timestamp and the outcome of each syscall are inputs.
-/

set_option autoImplicit false

namespace LogSpec

/-- `Level` of the desired log (src/log.go lines 106-119).
Ordinals follow the `iota` block: TraceL = 0, Information = 1,
DebugL = 2, Warning = 3, ErrorL = 4. -/
inductive Level where
  | TraceL
  | Information
  | DebugL
  | Warning
  | ErrorL
deriving DecidableEq, Repr

/-- The integer value each `Level` constant receives from `iota`. -/
def Level.toNat : Level → Nat
  | .TraceL => 0
  | .Information => 1
  | .DebugL => 2
  | .Warning => 3
  | .ErrorL => 4

/-- `TextMaxWidth` (src/log.go line 122): maximum number of characters
allowed on a log line. -/
def TextMaxWidth : Nat := 100

/-- `any` (src/log.go lines 26-33): linear search of `lhs` in `rhs`. -/
def any : String → List String → Bool
  | _, [] => false
  | lhs, item :: rest => if item = lhs then true else any lhs rest

/-- `SetLogLevel` (src/log.go lines 37-49). The Go function stores the
parsed level in the package-global `level`; the model returns the value
stored. -/
def SetLogLevel (l : String) : Level :=
  if any l ["information", "info", "i", "in"] then .Information
  else if any l ["warning", "warn", "w", "wa"] then .Warning
  else if any l ["error", "err", "er", "e"] then .ErrorL
  else if any l ["debug", "deb", "de", "d"] then .DebugL
  else .TraceL

/-- State-passing form of `SetLogLevel`: the package-global `level` before
the call is the second argument, the value after the call is returned. -/
def setLogLevelState (l : String) (_old : Level) : Level :=
  SetLogLevel l

/-- All alias strings recognized by `SetLogLevel`. -/
def recognizedAliases : List String :=
  ["information", "info", "i", "in", "warning", "warn", "w", "wa",
   "error", "err", "er", "e", "debug", "deb", "de", "d"]

/-- The separator test of the tokenizer loop in `reshape`
(src/log.go line 197): space, line feed, carriage return. -/
def isSep (c : Char) : Bool := c = ' ' || c = '\n' || c = '\r'

/-- The word-splitting loop of `reshape` (src/log.go lines 196-208):
`word` is the in-progress word accumulator; a separator flushes a
non-empty accumulator, and at end of input a non-empty accumulator is
flushed (the Go code does this with the `i == len(_text)-1` check, which
only runs when the final byte is not a separator). -/
def getWords : List Char → List Char → List (List Char)
  | [], word => if word.isEmpty then [] else [word]
  | c :: rest, word =>
    if isSep c then
      if word.isEmpty then getWords rest [] else word :: getWords rest []
    else
      getWords rest (word ++ [c])

/-- Specification-side tokenizer, following the spec's words: the text is
split at every space/LF/CR byte into (possibly empty) pieces. -/
def splitSpec : List Char → List (List Char)
  | [] => [[]]
  | c :: rest =>
    if isSep c then [] :: splitSpec rest
    else
      match splitSpec rest with
      | [] => [[c]]
      | w :: ws => (c :: w) :: ws

/-- Specification-side word list: split, then drop empty pieces. -/
def wordsSpec (text : List Char) : List (List Char) :=
  (splitSpec text).filter (fun w => !w.isEmpty)

/-- The margin written at the start of a wrapped continuation line by
`initLine` in `reshape` (src/log.go lines 214-223): `leftmargin - 4`
spaces followed by one horizontal tab.  In Go `leftmargin-4` is an `int`
and the `for` loop body runs `max (leftmargin-4) 0` times, which is
exactly Nat subtraction. -/
def marginOf (lm : Nat) : List Char :=
  List.replicate (lm - 4) ' ' ++ ['\t']

/-- `initLine` (src/log.go lines 214-223): the fresh line contents after
a flush triggered at word index `i` — empty when `i = 0`, otherwise the
continuation margin. -/
def contLine (lm : Nat) (i : Nat) : List Char :=
  if i = 0 then [] else marginOf lm

/-- The per-word append step of the `reshape` loop (src/log.go lines
232-235): a separating space is added first when the line is non-empty. -/
def appendWord (line w : List Char) : List Char :=
  (if line.isEmpty then line else line ++ [' ']) ++ w

/-- The main loop of `reshape` (src/log.go lines 226-239), returning the
physical lines written to `buf` in order: a line is flushed before
appending word `w` when `len(word)+len(line) > TextMaxWidth`, and the
line holding the final word is always flushed. -/
def reshapeAux (lm : Nat) : List (List Char) → Nat → List Char → List (List Char)
  | [], _, _ => []
  | [w], i, line =>
    if TextMaxWidth < w.length + line.length then
      [line, appendWord (contLine lm i) w]
    else
      [appendWord line w]
  | w :: w2 :: ws, i, line =>
    if TextMaxWidth < w.length + line.length then
      line :: reshapeAux lm (w2 :: ws) (i + 1) (appendWord (contLine lm i) w)
    else
      reshapeAux lm (w2 :: ws) (i + 1) (appendWord line w)

/-- The physical lines produced by `reshape pre text`: the loop starts
with `line = pre` and word index 0. -/
def reshapeLines (pre text : List Char) : List (List Char) :=
  reshapeAux pre.length (getWords text []) 0 pre

/-- Modelled from the spec: the package constant `carriageReturn` is
declared in a platform file of this repository that is not under src/;
the spec says a flushed line is "appended to output, followed by the
carriage-return-plus-newline sequence". -/
def carriageReturn : List Char := ['\x0d', '\n']

/-- `reshape` (src/log.go lines 188-242): the flushed lines joined by
`carriageReturn` — `buf` receives each flushed line followed by
`carriageReturn`, and the final line with no terminator. -/
def reshape (pre text : List Char) : List Char :=
  List.intercalate carriageReturn (reshapeLines pre text)

/-- The words of the message joined by single spaces. -/
def joinWords : List (List Char) → List Char
  | [] => []
  | [w] => w
  | w :: w2 :: ws => w ++ ' ' :: joinWords (w2 :: ws)

/-- Sum of the lengths of a list of words. -/
def pieceSum (ws : List (List Char)) : Nat := (ws.map List.length).sum

/-- Invariant satisfied by every line the `reshape` loop builds or
flushes: short (≤ 101 bytes, one more than `TextMaxWidth` because the
flush test ignores the separating space), or the untouched starting line
(the verbatim `pre`), or a freshly started line carrying one oversized
word. -/
def GoodLine (pre : List Char) (allW : List (List Char)) (l : List Char) : Prop :=
  l.length ≤ 101 ∨ l = pre ∨
    ∃ w ∈ allW, 100 < l.length ∧ l.length ≤ max pre.length 1 + 1 + w.length

/-- `LogOptions` bit constants (src/log.go lines 15-22).  `LogOptions` is
a `uint8`; only the three low bits are ever named, so `Nat` with bitwise
`&&&`/`|||` is an exact model. -/
def LogToStdout : Nat := 1

/-- Second option bit: log to file. -/
def LogToFile : Nat := 2

/-- Third option bit: reshape logs. -/
def ReshapeLogs : Nat := 4

/-- `DefaultLogOptions = LogToStdout | LogToFile | ReshapeLogs`. -/
def DefaultLogOptions : Nat := LogToStdout ||| LogToFile ||| ReshapeLogs

/-- A sink handle held by a `Logger`: `os.Stdout`, or a `*file` wrapper
around a path (src/log.go lines 53-60). -/
inductive Sink where
  | console
  | file (name : String)
deriving DecidableEq, Repr

/-- `Logger` (src/log.go lines 57-60). -/
structure Logger where
  loggers : List Sink
  options : Nat
deriving DecidableEq, Repr

/-- `New` (src/log.go lines 130-144).  `runtime.GOOS` is an environment
constant, passed here as the `goos` parameter: the console sink is
appended when `goos ≠ "windows" || options&LogToStdout > 0`, then the
file sink when `options&LogToFile > 0`. -/
def New (goos : String) (logFile : String) (options : Nat) : Logger :=
  let l1 : List Sink :=
    if goos ≠ "windows" ∨ 0 < options &&& LogToStdout then [Sink.console] else []
  let l2 : List Sink :=
    if 0 < options &&& LogToFile then l1 ++ [Sink.file logFile] else l1
  { loggers := l2, options := options }

/-- `NewDefault` (src/log.go lines 125-127). -/
def NewDefault (goos : String) (logFile : String) : Logger :=
  New goos logFile DefaultLogOptions

/-- The level tag character chosen by the `switch` in `prefix`
(src/log.go lines 149-160); the `default` arm, which covers `ErrorL`,
yields "E". -/
def levelChar : Level → String
  | .TraceL => "T"
  | .Information => "I"
  | .Warning => "W"
  | .DebugL => "D"
  | .ErrorL => "E"

/-- The prefix built by `prefix` (src/log.go lines 146-162):
`fmt.Sprintf("%v [%v] -\t", str, char)` where `str` is the formatted
current time, passed here as the `ts` parameter. -/
def prefixStr (ts : String) (lev : Level) : String :=
  ts ++ " [" ++ levelChar lev ++ "] -\t"

/-- `reshape` on Go strings: the Go code works byte-wise on the string
contents (ASCII assumed, per the function's own doc comment). -/
def reshapeStr (pre text : String) : String :=
  String.mk (reshape pre.data text.data)

/-- The formatted message `_log` computes (src/log.go lines 172-178):
reshaped when the `ReshapeLogs` bit is set, plain concatenation
otherwise. -/
def formatMsg (l : Logger) (ts : String) (lev : Level) (fmsg : String) : String :=
  if 0 < l.options &&& ReshapeLogs then reshapeStr (prefixStr ts lev) fmsg
  else prefixStr ts lev ++ fmsg

/-- Observable outcome of one `_log` call. -/
inductive LogResult where
  | panicked (msg : String)
  | silent
  | wrote (outs : List (Sink × String))
deriving DecidableEq, Repr

/-- `_log` (src/log.go lines 164-182).  The package-global `level` is the
`minLevel` parameter and `time.Now` is folded into `ts`; `fmsg` is the
already-`Sprintf`-formatted body.  The `log.SetOutput(io.MultiWriter(...))`
call configures the standard `log` package, which is never used for
output here, so it has no observable effect.  The final loop prints the
identical `msg` to every sink in registration order. -/
def _log (l : Logger) (minLevel : Level) (ts : String) (lev : Level)
    (fmsg : String) : LogResult :=
  if l.loggers.length = 0 then
    .panicked "Could not log because no loggers are configured"
  else if lev.toNat < minLevel.toNat then
    .silent
  else
    .wrote (l.loggers.map fun s => (s, formatMsg l ts lev fmsg))

/-- `Trace` (src/log.go lines 245-247). -/
def Logger.Trace (l : Logger) (minLevel : Level) (ts f : String) : LogResult :=
  _log l minLevel ts .TraceL f

/-- `Warn` (src/log.go lines 250-252). -/
def Logger.Warn (l : Logger) (minLevel : Level) (ts f : String) : LogResult :=
  _log l minLevel ts .Warning f

/-- `Info` (src/log.go lines 255-257). -/
def Logger.Info (l : Logger) (minLevel : Level) (ts f : String) : LogResult :=
  _log l minLevel ts .Information f

/-- `Debug` (src/log.go lines 260-262). -/
def Logger.Debug (l : Logger) (minLevel : Level) (ts f : String) : LogResult :=
  _log l minLevel ts .DebugL f

/-- `Error` (src/log.go lines 265-267). -/
def Logger.Error (l : Logger) (minLevel : Level) (ts f : String) : LogResult :=
  _log l minLevel ts .ErrorL f

/-- Error classification for the modelled OS calls in `file.WriteMsg`:
the cases distinguished by `os.IsNotExist` and `os.IsExist`. -/
inductive IOErr where
  | notExist
  | exist
  | other (s : String)
deriving DecidableEq, Repr

/-- `os.IsNotExist` on an optional error (`none` = nil). -/
def isNotExist : Option IOErr → Bool
  | some .notExist => true
  | _ => false

/-- `os.IsExist` on an optional error (`none` = nil). -/
def isExist : Option IOErr → Bool
  | some .exist => true
  | _ => false

/-- How `fmt.Sprintf("%v", err)` renders the modelled error values; a nil
error renders as "<nil>". -/
def showErr : Option IOErr → String
  | none => "<nil>"
  | some .notExist => "file does not exist"
  | some .exist => "file already exists"
  | some (.other s) => s

/-- Observable outcome of one `file.WriteMsg` call. -/
inductive WriteMsgResult where
  | retOk
  | retErr (msg : String)
  | panickedErr (e : IOErr)
  | panickedMsg (msg : String)
deriving DecidableEq, Repr

/-- `file.WriteMsg` (src/log.go lines 69-104), with the outcome of each
OS call passed as a parameter: `open1` is the first `os.OpenFile`,
`mkdirRes` the `os.MkdirAll` on the derived directory, `open2` the
retried `os.OpenFile` (only reached when `mkdirRes = none`).
When `open1` succeeds the function returns nil whether or not the
`Fprintf` writes succeed (write errors are only printed to stdout), so
that branch is `.retOk`.  In the not-found branch the code sets
`err` to the mkdir error, or to the retried open's error when mkdir
succeeded, and then panics: with `err` itself when `os.IsExist(err)`,
otherwise with `"Could not open log file: %v"` — note this second panic
also fires when `err` is nil, i.e. when the retried open succeeded, so
the write at lines 96-103 is unreachable from this branch. -/
def WriteMsg (open1 mkdirRes open2 : Option IOErr) : WriteMsgResult :=
  if open1 = none then
    .retOk
  else if isNotExist open1 then
    let err : Option IOErr := if mkdirRes = none then open2 else mkdirRes
    if isExist err then
      .panickedErr IOErr.exist
    else
      .panickedMsg ("Could not open log file: " ++ showErr err)
  else
    .retErr ("Could not log to file: " ++ showErr open1)

theorem splitSpec_ne_nil (text : List Char) : splitSpec text ≠ [] := by
  induction text with
  | nil => simp [splitSpec]
  | cons c rest ih =>
    by_cases h : isSep c = true
    · simp [splitSpec, h]
    · simp only [splitSpec, h]
      cases hs : splitSpec rest with
      | nil => simp
      | cons w ws => simp

theorem getWords_acc (text : List Char) :
    ∀ acc : List Char,
      getWords text acc =
        ((acc ++ (splitSpec text).headD []) :: (splitSpec text).tail).filter
          (fun w => !w.isEmpty) := by
  induction text with
  | nil =>
    intro acc
    by_cases h : acc.isEmpty
    · simp [getWords, splitSpec, h]
    · simp [getWords, splitSpec, h]
  | cons c rest ih =>
    intro acc
    by_cases h : isSep c = true
    · have hrest := ih []
      cases hs : splitSpec rest with
      | nil => exact absurd hs (splitSpec_ne_nil rest)
      | cons w ws =>
        rw [hs] at hrest
        by_cases ha : acc.isEmpty
        · have hae : acc = [] := by
            cases acc with
            | nil => rfl
            | cons x xs => simp [List.isEmpty] at ha
          simp [getWords, h, ha, splitSpec, hs, hae, hrest]
        · simp [getWords, h, ha, splitSpec, hs, hrest]
    · have hrest := ih (acc ++ [c])
      cases hs : splitSpec rest with
      | nil => exact absurd hs (splitSpec_ne_nil rest)
      | cons w ws =>
        rw [hs] at hrest
        have hne : ¬ (acc ++ c :: w).isEmpty = true := by
          cases acc <;> simp [List.isEmpty]
        simp only [getWords, h, if_false, Bool.false_eq_true, ite_false]
        rw [hrest]
        simp [splitSpec, h, hs, List.filter, hne, List.append_assoc]

theorem getWords_eq_wordsSpec (text : List Char) :
    getWords text [] = wordsSpec text := by
  have h := getWords_acc text []
  cases hs : splitSpec text with
  | nil => exact absurd hs (splitSpec_ne_nil text)
  | cons w ws =>
    rw [hs] at h
    simp only [List.nil_append] at h
    rw [h]
    simp [wordsSpec, hs]

theorem splitSpec_no_sep (text : List Char) :
    ∀ w ∈ splitSpec text, ∀ c ∈ w, isSep c = false := by
  induction text with
  | nil => intro w hw; simp [splitSpec] at hw; simp [hw]
  | cons c rest ih =>
    intro w hw
    by_cases h : isSep c = true
    · simp [splitSpec, h] at hw
      rcases hw with hw | hw
      · simp [hw]
      · exact ih w hw
    · simp only [splitSpec, h, Bool.false_eq_true, ite_false] at hw
      cases hs : splitSpec rest with
      | nil => exact absurd hs (splitSpec_ne_nil rest)
      | cons v vs =>
        rw [hs] at hw
        simp at hw
        rcases hw with hw | hw
        · subst hw
          intro d hd
          simp at hd
          rcases hd with hd | hd
          · subst hd; simp at h; exact h
          · exact ih v (by rw [hs]; exact List.mem_cons_self v vs) d hd
        · exact ih w (by rw [hs]; exact List.mem_cons_of_mem v hw)

theorem getWords_no_sep (text : List Char) :
    ∀ w ∈ getWords text [], w ≠ [] ∧ ∀ c ∈ w, isSep c = false := by
  intro w hw
  rw [getWords_eq_wordsSpec, wordsSpec, List.mem_filter] at hw
  refine ⟨?_, splitSpec_no_sep text w hw.1⟩
  have := hw.2
  cases w with
  | nil => simp [List.isEmpty] at this
  | cons x xs => simp

theorem splitSpec_all_sep_empty (text : List Char)
    (h : ∀ c ∈ text, isSep c = true) :
    ∀ w ∈ splitSpec text, w = [] := by
  induction text with
  | nil => intro w hw; simpa [splitSpec] using hw
  | cons c rest ih =>
    intro w hw
    have hc : isSep c = true := h c (List.mem_cons_self c rest)
    simp [splitSpec, hc] at hw
    rcases hw with hw | hw
    · exact hw
    · exact ih (fun d hd => h d (List.mem_cons_of_mem c hd)) w hw

theorem getWords_all_sep (text : List Char)
    (h : ∀ c ∈ text, isSep c = true) :
    getWords text [] = [] := by
  rw [getWords_eq_wordsSpec, wordsSpec]
  rw [List.filter_eq_nil_iff]
  intro w hw
  have := splitSpec_all_sep_empty text h w hw
  subst this
  simp [List.isEmpty]

theorem splitSpec_len (text : List Char) :
    pieceSum (splitSpec text) + (splitSpec text).length = text.length + 1 := by
  induction text with
  | nil => simp [splitSpec, pieceSum]
  | cons c rest ih =>
    by_cases h : isSep c = true
    · simp only [splitSpec, h, if_true]
      simp only [pieceSum, List.map_cons, List.length_nil, List.sum_cons,
        List.length_cons] at *
      omega
    · simp only [splitSpec, h, Bool.false_eq_true, ite_false]
      cases hs : splitSpec rest with
      | nil => exact absurd hs (splitSpec_ne_nil rest)
      | cons w ws =>
        rw [hs] at ih
        simp only [pieceSum, List.map_cons, List.sum_cons, List.length_cons] at *
        omega

theorem pieceSum_filter_le (p : List Char → Bool) (ws : List (List Char)) :
    pieceSum (ws.filter p) ≤ pieceSum ws := by
  induction ws with
  | nil => simp [pieceSum]
  | cons w ws ih =>
    by_cases h : p w = true
    · simp only [List.filter_cons, h, if_true, pieceSum, List.map_cons,
        List.sum_cons] at *
      omega
    · simp only [List.filter_cons, h, Bool.false_eq_true, ite_false, pieceSum,
        List.map_cons, List.sum_cons] at *
      omega

theorem joinWords_len (ws : List (List Char)) (h : ws ≠ []) :
    (joinWords ws).length + 1 = pieceSum ws + ws.length := by
  induction ws with
  | nil => exact absurd rfl h
  | cons w ws ih =>
    cases ws with
    | nil => simp [joinWords, pieceSum]
    | cons w2 ws2 =>
      have := ih (by simp)
      simp only [joinWords, pieceSum, List.map_cons, List.sum_cons,
        List.length_cons, List.length_append] at *
      omega

theorem joinWords_words_le (text : List Char) :
    (joinWords (getWords text [])).length ≤ text.length := by
  rw [getWords_eq_wordsSpec]
  by_cases h : wordsSpec text = []
  · simp [h, joinWords]
  · have h1 := joinWords_len (wordsSpec text) h
    have h2 := splitSpec_len text
    have h3 := pieceSum_filter_le (fun w => !w.isEmpty) (splitSpec text)
    have h4 : (wordsSpec text).length ≤ (splitSpec text).length :=
      List.length_filter_le _ _
    simp only [wordsSpec] at *
    omega

theorem appendWord_eq (line w : List Char) :
    appendWord line w = line ++ (if line.isEmpty then w else ' ' :: w) := by
  cases line with
  | nil => simp [appendWord, List.isEmpty]
  | cons x xs => simp [appendWord, List.isEmpty]

theorem appendWord_len_le (line w : List Char) :
    (appendWord line w).length ≤ line.length + 1 + w.length := by
  rw [appendWord_eq]
  by_cases h : line.isEmpty
  · simp [h]
  · simp [h]; omega

theorem appendWord_len_of_fit (line w : List Char)
    (h : w.length + line.length ≤ 100) :
    (appendWord line w).length ≤ 101 := by
  have := appendWord_len_le line w
  omega

theorem marginOf_ne_nil (lm : Nat) : (marginOf lm).isEmpty = false := by
  simp [marginOf, List.isEmpty_eq_false_iff_exists_mem]

theorem marginOf_len_le (lm : Nat) : (marginOf lm).length ≤ max lm 1 := by
  simp only [marginOf, List.length_append, List.length_replicate,
    List.length_cons, List.length_nil]
  omega

theorem contLine_len_le (lm i : Nat) : (contLine lm i).length ≤ max lm 1 := by
  by_cases h : i = 0
  · simp [contLine, h]
  · simp only [contLine, h, ite_false]
    exact marginOf_len_le lm
theorem goodLine_fresh (pre : List Char) (allW : List (List Char))
    (i : Nat) (w : List Char) (hw : w ∈ allW) :
    GoodLine pre allW (appendWord (contLine pre.length i) w) := by
  have h1 := appendWord_len_le (contLine pre.length i) w
  have h2 := contLine_len_le pre.length i
  by_cases h : (appendWord (contLine pre.length i) w).length ≤ 101
  · exact Or.inl h
  · exact Or.inr (Or.inr ⟨w, hw, by omega, by omega⟩)

theorem goodLine_fit (pre : List Char) (allW : List (List Char))
    (line w : List Char) (h : ¬ TextMaxWidth < w.length + line.length) :
    GoodLine pre allW (appendWord line w) := by
  simp only [TextMaxWidth] at h
  exact Or.inl (appendWord_len_of_fit line w (by omega))

theorem reshapeAux_good (pre : List Char) (allW : List (List Char)) :
    ∀ (ws : List (List Char)) (i : Nat) (line : List Char),
      (∀ w ∈ ws, w ∈ allW) → GoodLine pre allW line →
      ∀ l ∈ reshapeAux pre.length ws i line, GoodLine pre allW l := by
  intro ws
  induction ws with
  | nil => intro i line _ _ l hl; simp [reshapeAux] at hl
  | cons w ws ih =>
    intro i line hsub hline l hl
    have hw : w ∈ allW := hsub w (List.mem_cons_self w ws)
    cases ws with
    | nil =>
      by_cases hg : TextMaxWidth < w.length + line.length
      · simp only [reshapeAux, hg, if_true] at hl
        simp only [List.mem_cons, List.not_mem_nil, or_false] at hl
        rcases hl with rfl | rfl
        · exact hline
        · exact goodLine_fresh pre allW i w hw
      · simp only [reshapeAux, hg, if_false] at hl
        simp only [List.mem_cons, List.not_mem_nil, or_false] at hl
        subst hl
        exact goodLine_fit pre allW line w hg
    | cons w2 ws2 =>
      have hsub2 : ∀ v ∈ w2 :: ws2, v ∈ allW :=
        fun v hv => hsub v (List.mem_cons_of_mem w hv)
      by_cases hg : TextMaxWidth < w.length + line.length
      · simp only [reshapeAux, hg, if_true] at hl
        rcases List.mem_cons.mp hl with rfl | h2
        · exact hline
        · exact ih (i + 1) (appendWord (contLine pre.length i) w) hsub2
            (goodLine_fresh pre allW i w hw) l h2
      · simp only [reshapeAux, hg, if_false] at hl
        exact ih (i + 1) (appendWord line w) hsub2
          (goodLine_fit pre allW line w hg) l hl

theorem reshapeAux_head_ext (lm : Nat) :
    ∀ (ws : List (List Char)) (i : Nat) (line : List Char), ws ≠ [] →
      ∃ rest tl, reshapeAux lm ws i line = (line ++ rest) :: tl := by
  intro ws
  induction ws with
  | nil => intro i line h; exact absurd rfl h
  | cons w ws ih =>
    intro i line _
    cases ws with
    | nil =>
      by_cases hg : TextMaxWidth < w.length + line.length
      · exact ⟨[], [appendWord (contLine lm i) w], by
          simp only [reshapeAux, hg, if_true, List.append_nil]⟩
      · refine ⟨if line.isEmpty then w else ' ' :: w, [], ?_⟩
        simp only [reshapeAux, hg, if_false]
        rw [appendWord_eq]
    | cons w2 ws2 =>
      by_cases hg : TextMaxWidth < w.length + line.length
      · exact ⟨[], reshapeAux lm (w2 :: ws2) (i + 1)
          (appendWord (contLine lm i) w), by
          simp only [reshapeAux, hg, if_true, List.append_nil]⟩
      · obtain ⟨rest, tl, hrec⟩ :=
          ih (i + 1) (appendWord line w) (by simp)
        refine ⟨(if line.isEmpty then w else ' ' :: w) ++ rest, tl, ?_⟩
        simp only [reshapeAux, hg, if_false]
        rw [hrec, appendWord_eq, List.append_assoc]

theorem appendWord_margin (lm : Nat) (w : List Char) :
    appendWord (marginOf lm) w = marginOf lm ++ ' ' :: w := by
  rw [appendWord_eq, marginOf_ne_nil]
  simp

theorem reshapeAux_tail_margin (lm : Nat) :
    ∀ (ws : List (List Char)) (i : Nat) (line : List Char), 1 ≤ i →
      ∀ l ∈ (reshapeAux lm ws i line).tail,
        ∃ rest, l = marginOf lm ++ rest := by
  intro ws
  induction ws with
  | nil => intro i line _ l hl; simp [reshapeAux] at hl
  | cons w ws ih =>
    intro i line hi l hl
    have hi0 : i ≠ 0 := by omega
    cases ws with
    | nil =>
      by_cases hg : TextMaxWidth < w.length + line.length
      · simp only [reshapeAux, hg, if_true, List.tail_cons] at hl
        simp only [List.mem_cons, List.not_mem_nil, or_false] at hl
        subst hl
        exact ⟨' ' :: w, by simp [contLine, hi0, appendWord_margin]⟩
      · simp only [reshapeAux, hg, if_false, List.tail_cons] at hl
        simp at hl
    | cons w2 ws2 =>
      by_cases hg : TextMaxWidth < w.length + line.length
      · simp only [reshapeAux, hg, if_true, List.tail_cons] at hl
        obtain ⟨rest0, tl0, hrec⟩ :=
          reshapeAux_head_ext lm (w2 :: ws2) (i + 1)
            (appendWord (contLine lm i) w) (by simp)
        rw [hrec] at hl
        rcases List.mem_cons.mp hl with rfl | h2
        · refine ⟨' ' :: w ++ rest0, ?_⟩
          simp [contLine, hi0, appendWord_margin, List.append_assoc]
        · have := ih (i + 1) (appendWord (contLine lm i) w) (by omega) l
          rw [hrec] at this
          exact this h2
      · simp only [reshapeAux, hg, if_false] at hl
        exact ih (i + 1) (appendWord line w) (by omega) l hl

theorem reshapeAux_single (lm : Nat) :
    ∀ (ws : List (List Char)), ws ≠ [] →
      ∀ (i : Nat) (line : List Char), line ≠ [] →
        line.length + (joinWords ws).length + 1 ≤ 101 →
        reshapeAux lm ws i line = [line ++ ' ' :: joinWords ws] := by
  intro ws
  induction ws with
  | nil => intro h; exact absurd rfl h
  | cons w ws ih =>
    intro _ i line hline hlen
    have hlineE : line.isEmpty = false := by
      cases line with
      | nil => exact absurd rfl hline
      | cons x xs => simp [List.isEmpty]
    cases ws with
    | nil =>
      have hg : ¬ TextMaxWidth < w.length + line.length := by
        simp only [joinWords] at hlen
        simp only [TextMaxWidth]
        omega
      simp only [reshapeAux, hg, if_false, joinWords]
      rw [appendWord_eq, hlineE]
      simp
    | cons w2 ws2 =>
      have hj : joinWords (w :: w2 :: ws2) = w ++ ' ' :: joinWords (w2 :: ws2) :=
        rfl
      rw [hj] at hlen
      simp only [List.length_append, List.length_cons] at hlen
      have hg : ¬ TextMaxWidth < w.length + line.length := by
        simp only [TextMaxWidth]
        omega
      simp only [reshapeAux, hg, if_false]
      have hrec := ih (by simp) (i + 1) (appendWord line w)
        (by rw [appendWord_eq, hlineE]; simp)
        (by rw [appendWord_eq, hlineE]; simp; omega)
      rw [hrec, appendWord_eq, hlineE, hj]
      simp [List.append_assoc]

theorem intercalate_single (sep x : List Char) :
    List.intercalate sep [x] = x := by
  simp [List.intercalate, List.intersperse]

theorem any_iff (s : String) (l : List String) : any s l = true ↔ s ∈ l := by
  induction l with
  | nil => simp [any]
  | cons item rest ih =>
    by_cases h : item = s
    · simp [any, h]
    · simp only [any, h, Bool.false_eq_true, ite_false, List.mem_cons, ih]
      constructor
      · exact Or.inr
      · rintro (rfl | hm)
        · exact absurd rfl h
        · exact hm

/-- C1: in `file.WriteMsg`, when the first open fails with not-found, the
directory is created and the open retried; when the retried open succeeds
the code nevertheless panics (`"Could not open log file: <nil>"`), because
the `else` arm of the `os.IsExist(err)` test fires even for a nil `err` —
the recovery write at src/log.go lines 96-103 is dead code.  The second
conjunct shows the not-found branch can only ever panic, whatever the
mkdir and retried-open outcomes. -/
theorem c1_writeMsg_retry_panics :
    WriteMsg (some IOErr.notExist) none none =
      WriteMsgResult.panickedMsg "Could not open log file: <nil>" ∧
    ∀ mkdirRes open2 : Option IOErr,
      WriteMsg (some IOErr.notExist) mkdirRes open2 =
          WriteMsgResult.panickedErr IOErr.exist ∨
        ∃ m, WriteMsg (some IOErr.notExist) mkdirRes open2 =
          WriteMsgResult.panickedMsg m := by
  refine ⟨rfl, ?_⟩
  intro mkdirRes open2
  by_cases he : isExist (if mkdirRes = none then open2 else mkdirRes) = true
  · left
    simp [WriteMsg, isNotExist, he]
  · right
    exact ⟨"Could not open log file: " ++
      showErr (if mkdirRes = none then open2 else mkdirRes),
      by simp [WriteMsg, isNotExist, he]⟩

/-- C2: levels are ordered Trace < Information < Debug < Warning < Error
by their ordinals; with a non-empty sink list and configured minimum
`L2`, a call at `L1 < L2` is silent, a call at `L2` writes the formatted
line to the sinks, and in general a call writes exactly when its level is
numerically ≥ the configured minimum. -/
theorem c2_level_filtering (l : Logger) (ts fmsg : String) (L1 L2 : Level)
    (hs : l.loggers ≠ []) (hlt : L1.toNat < L2.toNat) :
    _log l L2 ts L1 fmsg = LogResult.silent ∧
    _log l L2 ts L2 fmsg =
      LogResult.wrote (l.loggers.map fun s => (s, formatMsg l ts L2 fmsg)) ∧
    (∀ lev : Level,
      _log l L2 ts lev fmsg =
        LogResult.wrote (l.loggers.map fun s => (s, formatMsg l ts lev fmsg)) ↔
      L2.toNat ≤ lev.toNat) ∧
    (Level.TraceL.toNat < Level.Information.toNat ∧
     Level.Information.toNat < Level.DebugL.toNat ∧
     Level.DebugL.toNat < Level.Warning.toNat ∧
     Level.Warning.toNat < Level.ErrorL.toNat) := by
  have hlen : ¬ l.loggers.length = 0 := by
    simpa [List.length_eq_zero] using hs
  refine ⟨?_, ?_, ?_, by decide⟩
  · simp [_log, hlen, hlt]
  · simp [_log, hlen, lt_irrefl]
  · intro lev
    constructor
    · intro h
      by_contra hc
      have hlt2 : lev.toNat < L2.toNat := by omega
      simp [_log, hlen, hlt2] at h
    · intro h
      have hnlt : ¬ lev.toNat < L2.toNat := by omega
      simp [_log, hlen, hnlt]

/-- Witness for C2 at a concrete logger, Trace below minimum Information. -/
theorem c2_level_filtering_witness :
    _log (Logger.mk [Sink.console] 0) Level.Information "t" Level.TraceL "m" =
      LogResult.silent ∧
    _log (Logger.mk [Sink.console] 0) Level.Information "t" Level.Information
        "m" =
      LogResult.wrote ((Logger.mk [Sink.console] 0).loggers.map
        fun s => (s, formatMsg (Logger.mk [Sink.console] 0) "t"
          Level.Information "m")) ∧
    (∀ lev : Level,
      _log (Logger.mk [Sink.console] 0) Level.Information "t" lev "m" =
        LogResult.wrote ((Logger.mk [Sink.console] 0).loggers.map
          fun s => (s, formatMsg (Logger.mk [Sink.console] 0) "t" lev "m")) ↔
      Level.Information.toNat ≤ lev.toNat) ∧
    (Level.TraceL.toNat < Level.Information.toNat ∧
     Level.Information.toNat < Level.DebugL.toNat ∧
     Level.DebugL.toNat < Level.Warning.toNat ∧
     Level.Warning.toNat < Level.ErrorL.toNat) := by
  have h := c2_level_filtering (Logger.mk [Sink.console] 0) "t" "m"
    Level.TraceL Level.Information (by decide) (by decide)
  exact h

/-- C3 as stated is false: with total length within the limit the output
is one line, but a space separates the verbatim prefix from the first
word, so the result is not the prefix immediately followed by the joined
words; and with an empty body the prefix is not echoed at all. -/
theorem c3_counterexample :
    reshape ['p'] ['a'] = ['p', ' ', 'a'] ∧
    reshape ['p'] ['a'] ≠ ['p'] ++ ['a'] ∧
    reshape ['p'] [] = [] := by
  decide

/-- C3 (amended): for a non-empty prefix and a body containing at least
one word, if prefix length + body length ≤ 100 then reshape yields the
single line `prefix ++ " " ++ (words joined by single spaces)` — no
wrap, no carriage-return/newline, no tab continuation. -/
theorem c3_single_line (pre text : List Char) (hp : pre ≠ [])
    (hw : getWords text [] ≠ []) (hlen : pre.length + text.length ≤ 100) :
    reshape pre text = pre ++ ' ' :: joinWords (getWords text []) := by
  have hj := joinWords_words_le text
  have hone := reshapeAux_single pre.length (getWords text []) hw 0 pre hp
    (by omega)
  rw [reshape, reshapeLines, hone, intercalate_single]

/-- Witness for C3 (amended) at prefix "p", body "ab c". -/
theorem c3_single_line_witness :
    reshape ['p'] ['a', 'b', ' ', 'c'] =
      ['p'] ++ ' ' :: joinWords (getWords ['a', 'b', ' ', 'c'] []) :=
  c3_single_line ['p'] ['a', 'b', ' ', 'c'] (by decide) (by decide) (by decide)

theorem mem_drop_two_tail {α : Type} {xs : List α} {a : α}
    (h : a ∈ xs.drop 2) : a ∈ xs.tail := by
  cases xs with
  | nil => simp at h
  | cons x rest => exact List.mem_of_mem_drop (show a ∈ rest.drop 1 from h)

set_option maxRecDepth 40000 in
/-- C4 as stated is false: the flush test `len(word)+len(line) > 100`
does not count the separating space, so a line of exactly 101 characters
is emitted even though its single word is not longer than `100 - P`. -/
theorem c4_counterexample :
    (reshapeLines ['a', 'b'] (List.replicate 98 'x')).map List.length = [101] ∧
    ∀ w ∈ getWords (List.replicate 98 'x') [],
      w.length ≤ 100 - (['a', 'b'] : List Char).length := by
  constructor
  · decide
  · decide

/-- C4 (amended): the line is flushed before appending a word whenever
the line's current length plus the word's length (the separating space
not counted) exceeds 100.  Consequently every emitted line has at most
101 characters unless it is the bare prefix or a line holding a single
word `w` too long to fit (then its length is > 100 and at most
`max P 1 + 1 + |w|`); every line from the third on begins with exactly
`P - 4` (truncated at zero) spaces followed by one horizontal tab, and
the second line does too unless the first flushed line is the bare
prefix. -/
theorem c4_wrap_properties (pre text : List Char) :
    (∀ l ∈ reshapeLines pre text,
      l.length ≤ 101 ∨ l = pre ∨
        ∃ w ∈ getWords text [],
          100 < l.length ∧ l.length ≤ max pre.length 1 + 1 + w.length) ∧
    (∀ l ∈ (reshapeLines pre text).drop 2,
      ∃ rest, l = marginOf pre.length ++ rest) ∧
    (∀ l ∈ (reshapeLines pre text).drop 1,
      (∃ rest, l = marginOf pre.length ++ rest) ∨
        (reshapeLines pre text).head? = some pre) := by
  refine ⟨?_, ?_, ?_⟩
  · intro l hl
    exact reshapeAux_good pre (getWords text []) (getWords text []) 0 pre
      (fun _ h => h) (Or.inr (Or.inl rfl)) l hl
  · intro l hl
    rw [reshapeLines] at hl
    cases hws : getWords text [] with
    | nil => rw [hws] at hl; simp [reshapeAux] at hl
    | cons w ws =>
      rw [hws] at hl
      cases ws with
      | nil =>
        by_cases hg : TextMaxWidth < w.length + pre.length
        · simp only [reshapeAux, hg, if_true] at hl
          simp at hl
        · simp only [reshapeAux, hg, if_false] at hl
          simp at hl
      | cons w2 ws2 =>
        by_cases hg : TextMaxWidth < w.length + pre.length
        · simp only [reshapeAux, hg, if_true, Nat.zero_add] at hl
          have hl1 : l ∈ (reshapeAux pre.length (w2 :: ws2) 1
              (appendWord (contLine pre.length 0) w)).drop 1 := hl
          rw [List.drop_one] at hl1
          exact reshapeAux_tail_margin pre.length (w2 :: ws2) 1
            (appendWord (contLine pre.length 0) w) (le_refl 1) l hl1
        · simp only [reshapeAux, hg, if_false, Nat.zero_add] at hl
          have hl1 := mem_drop_two_tail hl
          exact reshapeAux_tail_margin pre.length (w2 :: ws2) 1
            (appendWord pre w) (le_refl 1) l hl1
  · intro l hl
    rw [reshapeLines] at hl
    cases hws : getWords text [] with
    | nil => rw [hws] at hl; simp [reshapeAux] at hl
    | cons w ws =>
      rw [hws] at hl
      cases ws with
      | nil =>
        by_cases hg : TextMaxWidth < w.length + pre.length
        · right
          simp [reshapeLines, hws, reshapeAux, hg]
        · simp only [reshapeAux, hg, if_false] at hl
          simp at hl
      | cons w2 ws2 =>
        by_cases hg : TextMaxWidth < w.length + pre.length
        · right
          simp [reshapeLines, hws, reshapeAux, hg]
        · left
          simp only [reshapeAux, hg, if_false, Nat.zero_add] at hl
          rw [List.drop_one] at hl
          exact reshapeAux_tail_margin pre.length (w2 :: ws2) 1
            (appendWord pre w) (le_refl 1) l hl

set_option maxRecDepth 40000 in
/-- Witness for C4 (amended): a two-line wrap where the second line
starts with the continuation margin. -/
theorem c4_wrap_properties_witness :
    (∃ rest, marginOf 5 ++ ' ' :: List.replicate 50 'y' =
        marginOf (['a', 'b', 'c', 'd', 'e'] : List Char).length ++ rest) ∨
      (reshapeLines ['a', 'b', 'c', 'd', 'e']
        (List.replicate 95 'x' ++ ' ' :: List.replicate 50 'y')).head? =
        some ['a', 'b', 'c', 'd', 'e'] :=
  (c4_wrap_properties ['a', 'b', 'c', 'd', 'e']
      (List.replicate 95 'x' ++ ' ' :: List.replicate 50 'y')).2.2
    (marginOf 5 ++ ' ' :: List.replicate 50 'y') (by decide)

/-- C5 as stated is false: on a non-Windows GOOS the console sink is
registered even with the `LogToStdout` flag clear. -/
theorem c5_counterexample :
    Sink.console ∈ (New "linux" "f.log" LogToFile).loggers ∧
    LogToFile &&& LogToStdout = 0 := by
  decide

/-- C5 (amended): `New` registers the console sink iff the GOOS is not
"windows" or the `LogToStdout` flag is set, and the file sink iff the
`LogToFile` flag is set, console first then file; `_log` writes the one
formatted string to every registered sink in that order. -/
theorem c5_sinks_and_fanout :
    (∀ (goos logFile : String) (options : Nat),
      (New goos logFile options).loggers =
        (if goos ≠ "windows" ∨ 0 < options &&& LogToStdout
          then [Sink.console] else []) ++
        (if 0 < options &&& LogToFile then [Sink.file logFile] else [])) ∧
    (∀ (l : Logger) (minLevel : Level) (ts : String) (lev : Level)
        (fmsg : String),
      l.loggers ≠ [] → minLevel.toNat ≤ lev.toNat →
      _log l minLevel ts lev fmsg =
        LogResult.wrote (l.loggers.map fun s => (s, formatMsg l ts lev fmsg))) := by
  constructor
  · intro goos logFile options
    by_cases h2 : 0 < options &&& LogToFile <;> simp [New, h2]
  · intro l minLevel ts lev fmsg hs hle
    have hlen : ¬ l.loggers.length = 0 := by
      simpa [List.length_eq_zero] using hs
    have hnlt : ¬ lev.toNat < minLevel.toNat := by omega
    simp [_log, hlen, hnlt]

/-- Witness for C5 (amended) at a concrete logger and levels. -/
theorem c5_sinks_and_fanout_witness :
    _log (Logger.mk [Sink.console, Sink.file "f"] 0) Level.TraceL "t"
        Level.ErrorL "m" =
      LogResult.wrote ((Logger.mk [Sink.console, Sink.file "f"] 0).loggers.map
        fun s => (s, formatMsg (Logger.mk [Sink.console, Sink.file "f"] 0)
          "t" Level.ErrorL "m")) :=
  c5_sinks_and_fanout.2 (Logger.mk [Sink.console, Sink.file "f"] 0)
    Level.TraceL "t" Level.ErrorL "m" (by decide) (by decide)

/-- C7: with the `ReshapeLogs` bit clear and the message emitted, the
formatted line is exactly `prefix ++ body`, unchanged, whatever the
body. -/
theorem c7_no_reshape (l : Logger) (minLevel : Level) (ts : String)
    (lev : Level) (fmsg : String) (hopt : l.options &&& ReshapeLogs = 0)
    (hs : l.loggers ≠ []) (hle : minLevel.toNat ≤ lev.toNat) :
    _log l minLevel ts lev fmsg =
      LogResult.wrote (l.loggers.map fun s => (s, prefixStr ts lev ++ fmsg)) := by
  have hlen : ¬ l.loggers.length = 0 := by
    simpa [List.length_eq_zero] using hs
  have hnlt : ¬ lev.toNat < minLevel.toNat := by omega
  simp [_log, hlen, hnlt, formatMsg, hopt]

/-- Witness for C7: `Error("boom")` with reshaping disabled. -/
theorem c7_no_reshape_witness :
    _log (Logger.mk [Sink.console] 3) Level.TraceL "t" Level.ErrorL "boom" =
      LogResult.wrote ((Logger.mk [Sink.console] 3).loggers.map
        fun s => (s, prefixStr "t" Level.ErrorL ++ "boom")) :=
  c7_no_reshape (Logger.mk [Sink.console] 3) Level.TraceL "t" Level.ErrorL
    "boom" (by decide) (by decide) (by decide)

/-- C8: `_log` — and each of the five level wrappers — panics when the
sink list is empty, for every level, minimum level and message, before
any level comparison or formatting happens. -/
theorem c8_empty_sinks_panic (l : Logger) (minLevel : Level)
    (ts fmsg : String) (hs : l.loggers = []) :
    (∀ lev : Level, _log l minLevel ts lev fmsg =
      LogResult.panicked "Could not log because no loggers are configured") ∧
    l.Trace minLevel ts fmsg =
      LogResult.panicked "Could not log because no loggers are configured" ∧
    l.Debug minLevel ts fmsg =
      LogResult.panicked "Could not log because no loggers are configured" ∧
    l.Info minLevel ts fmsg =
      LogResult.panicked "Could not log because no loggers are configured" ∧
    l.Warn minLevel ts fmsg =
      LogResult.panicked "Could not log because no loggers are configured" ∧
    l.Error minLevel ts fmsg =
      LogResult.panicked "Could not log because no loggers are configured" := by
  refine ⟨fun lev => ?_, ?_, ?_, ?_, ?_, ?_⟩ <;>
    simp [_log, Logger.Trace, Logger.Debug, Logger.Info, Logger.Warn,
      Logger.Error, hs]

/-- Witness for C8 at a concrete empty-sink logger and Error level. -/
theorem c8_empty_sinks_panic_witness :
    _log (Logger.mk [] 7) Level.TraceL "t" Level.ErrorL "m" =
      LogResult.panicked "Could not log because no loggers are configured" :=
  (c8_empty_sinks_panic (Logger.mk [] 7) Level.TraceL "t" "m" rfl).1
    Level.ErrorL

/-- C9: `SetLogLevel` is total and pure — recognized case-sensitive
aliases map to their level, every unrecognized string (such as the
wrong-case "INFO") yields Trace, and the stored level after a call does
not depend on the previous state, so repeating a call changes nothing. -/
theorem c9_setLogLevel_total :
    (∀ s : String, any s recognizedAliases = false →
      SetLogLevel s = Level.TraceL) ∧
    (∀ s ∈ ["information", "info", "i", "in"],
      SetLogLevel s = Level.Information) ∧
    (∀ s ∈ ["warning", "warn", "w", "wa"], SetLogLevel s = Level.Warning) ∧
    (∀ s ∈ ["error", "err", "er", "e"], SetLogLevel s = Level.ErrorL) ∧
    (∀ s ∈ ["debug", "deb", "de", "d"], SetLogLevel s = Level.DebugL) ∧
    (∀ (s : String) (st1 st2 : Level),
      setLogLevelState s st1 = setLogLevelState s st2) ∧
    SetLogLevel "INFO" = Level.TraceL := by
  refine ⟨?_, by decide, by decide, by decide, by decide,
    fun s st1 st2 => rfl, by decide⟩
  intro s hns
  have hmem : s ∉ recognizedAliases := by
    intro hm
    rw [(any_iff s recognizedAliases).2 hm] at hns
    exact Bool.noConfusion hns
  have hgroup : ∀ g : List String, (∀ x ∈ g, x ∈ recognizedAliases) →
      any s g = false := by
    intro g hsub
    by_cases h : any s g = true
    · exact absurd (hsub s ((any_iff s g).1 h)) hmem
    · simpa using h
  have h1 := hgroup ["information", "info", "i", "in"] (by decide)
  have h2 := hgroup ["warning", "warn", "w", "wa"] (by decide)
  have h3 := hgroup ["error", "err", "er", "e"] (by decide)
  have h4 := hgroup ["debug", "deb", "de", "d"] (by decide)
  simp [SetLogLevel, h1, h2, h3, h4]

/-- Witness for C9: an unrecognized string falls back to Trace. -/
theorem c9_setLogLevel_total_witness : SetLogLevel "zzz" = Level.TraceL :=
  c9_setLogLevel_total.1 "zzz" (by decide)

/-- C6: the tokenizer of `reshape` is exactly "split on space/LF/CR and
drop the empty pieces" — runs of separators act as one separator, word
order and content are preserved, no token is empty or contains a
separator byte, and the body `"a  b\nc"` yields the words
`["a", "b", "c"]`. -/
theorem c6_tokenization :
    (∀ text : List Char,
      getWords text [] = (splitSpec text).filter (fun w => !w.isEmpty)) ∧
    getWords ['a', ' ', ' ', 'b', '\n', 'c'] [] = [['a'], ['b'], ['c']] ∧
    (∀ text w : List Char, w ∈ getWords text [] →
      w ≠ [] ∧ ∀ c ∈ w, isSep c = false) := by
  refine ⟨?_, by decide, ?_⟩
  · intro text
    exact getWords_eq_wordsSpec text
  · intro text w hw
    exact getWords_no_sep text w hw

/-- Witness for C6 at the body "a ". -/
theorem c6_tokenization_witness :
    (['a'] : List Char) ≠ [] ∧ ∀ c ∈ (['a'] : List Char), isSep c = false :=
  c6_tokenization.2.2 ['a', ' '] ['a'] (by decide)

/-- C10: a body that is empty or consists only of separator bytes
reshapes to the empty string — the prefix (timestamp and level tag) is
not emitted at all — so a reshaped `_log` call with such a body writes
the empty string, a line with no prefix, to every sink. -/
theorem c10_all_sep_empty_output :
    (∀ pre text : List Char, (∀ c ∈ text, isSep c = true) →
      reshapeLines pre text = [] ∧ reshape pre text = []) ∧
    (∀ (l : Logger) (minLevel : Level) (ts : String) (lev : Level)
        (body : String),
      l.loggers ≠ [] → minLevel.toNat ≤ lev.toNat →
      0 < l.options &&& ReshapeLogs →
      (∀ c ∈ body.data, isSep c = true) →
      _log l minLevel ts lev body =
        LogResult.wrote (l.loggers.map fun s => (s, ""))) := by
  have hmain : ∀ pre text : List Char, (∀ c ∈ text, isSep c = true) →
      reshapeLines pre text = [] := by
    intro pre text h
    rw [reshapeLines, getWords_all_sep text h]
    rfl
  refine ⟨fun pre text h => ⟨hmain pre text h, ?_⟩, ?_⟩
  · show List.intercalate carriageReturn (reshapeLines pre text) = []
    rw [hmain pre text h]
    rfl
  · intro l minLevel ts lev body hs hle hopt hb
    have hlen : ¬ l.loggers.length = 0 := by
      simpa [List.length_eq_zero] using hs
    have hnlt : ¬ lev.toNat < minLevel.toNat := by omega
    have hform : formatMsg l ts lev body = "" := by
      have h0 := hmain (prefixStr ts lev).data body.data hb
      rw [formatMsg, if_pos hopt]
      show String.mk (List.intercalate carriageReturn
        (reshapeLines (prefixStr ts lev).data body.data)) = ""
      rw [h0]
      rfl
    simp [_log, hlen, hnlt, hform]

/-- Witness for C10 at prefix "p" and the all-separator body " \n". -/
theorem c10_all_sep_empty_output_witness :
    reshapeLines ['p'] [' ', '\n'] = [] ∧ reshape ['p'] [' ', '\n'] = [] :=
  c10_all_sep_empty_output.1 ['p'] [' ', '\n'] (by decide)

end LogSpec

